import Mathlib

/-!
# Verification of the `bigdecimal` conversion module

This file is a shallow embedding of `src/conversions/bigdecimal.rs`: the
bidirectional bridge between Rust's `bigdecimal::BigDecimal` ("NativeDecimal")
and Python's `decimal.Decimal` ("ForeignDecimal").

The bridging code itself (`extract_bound`, `to_object`, `into_py`) is
translated from the source.  The external collaborators it calls — the
`bigdecimal` crate's `Display`/`from_str`/`From<i64>`, Python's
`decimal.Decimal` constructor and `str()` rendering, and PyO3's `i64`
extraction — are not part of this repository's sources; they are modelled
from the spec (§3, §4, §6): an arbitrary-precision decimal is a pair of an
unscaled integer and a scale, the canonical string is its exact textual
form (sign, digits, decimal point, exponent), the constructor losslessly
parses any syntactically valid decimal string, and the renderers never
round or drop digits.
-/

/-! ## Digit-string primitives -/

/-- Numeric value of a big-endian digit list, e.g. `[1,2,3] ↦ 123`. -/
def ofDigitsBE (ds : List Nat) : Nat := ds.foldl (fun a d => 10 * a + d) 0

/-- Little-endian base-10 digits of `n`, computed with explicit fuel so that
it is structurally recursive (hence kernel-reducible). -/
def natDigitsRevAux : Nat → Nat → List Nat
  | 0, _ => []
  | _ + 1, 0 => []
  | fuel + 1, n + 1 => ((n + 1) % 10) :: natDigitsRevAux fuel ((n + 1) / 10)

/-- Big-endian base-10 digits of `n` (empty for `0`). -/
def natDigitsBE (n : Nat) : List Nat := (natDigitsRevAux n n).reverse

/-- Big-endian digits of `n`, rendering `0` as the single digit `0`. -/
def digitsOrZero (n : Nat) : List Nat := if n = 0 then [0] else natDigitsBE n

/-- A run of `k` zero digits. -/
def zeroDigits (k : Nat) : List Nat := List.replicate k 0

/-- The ASCII character for digit `d < 10`. -/
def digitChar (d : Nat) : Char := Char.ofNat (48 + d)

/-- Is `c` an ASCII decimal digit? -/
def isDigitChar (c : Char) : Bool := decide (48 ≤ c.toNat ∧ c.toNat ≤ 57)

/-! ### Lemmas about digit lists -/

theorem ofDigitsBE_nil : ofDigitsBE [] = 0 := rfl

theorem ofDigitsBE_foldl (a : Nat) (l : List Nat) :
    l.foldl (fun a d => 10 * a + d) a = a * 10 ^ l.length + ofDigitsBE l := by
  induction l generalizing a with
  | nil => simp [ofDigitsBE]
  | cons d l ih =>
    show l.foldl _ (10 * a + d) = _
    rw [ih (10 * a + d)]
    have hd : ofDigitsBE (d :: l) = d * 10 ^ l.length + ofDigitsBE l := by
      show l.foldl _ (10 * 0 + d) = _
      rw [ih (10 * 0 + d)]
      ring_nf
    rw [hd]
    simp [List.length_cons, pow_succ]
    ring

theorem ofDigitsBE_append (l₁ l₂ : List Nat) :
    ofDigitsBE (l₁ ++ l₂) = ofDigitsBE l₁ * 10 ^ l₂.length + ofDigitsBE l₂ := by
  unfold ofDigitsBE
  rw [List.foldl_append]
  exact ofDigitsBE_foldl _ l₂

theorem ofDigitsBE_zeroDigits (k : Nat) : ofDigitsBE (zeroDigits k) = 0 := by
  induction k with
  | zero => rfl
  | succ k ih =>
    have : zeroDigits (k + 1) = 0 :: zeroDigits k := List.replicate_succ 0 k
    rw [this]
    show (zeroDigits k).foldl _ (10 * 0 + 0) = 0
    simpa [ofDigitsBE] using ih

theorem ofDigitsBE_leading_zeros (k : Nat) (ds : List Nat) :
    ofDigitsBE (zeroDigits k ++ ds) = ofDigitsBE ds := by
  rw [ofDigitsBE_append, ofDigitsBE_zeroDigits]
  simp

theorem ofDigitsBE_trailing_zeros (ds : List Nat) (k : Nat) :
    ofDigitsBE (ds ++ zeroDigits k) = ofDigitsBE ds * 10 ^ k := by
  rw [ofDigitsBE_append, ofDigitsBE_zeroDigits]
  simp [zeroDigits]

theorem ofDigitsBE_reverse (l : List Nat) :
    ofDigitsBE l.reverse = Nat.ofDigits 10 l := by
  induction l with
  | nil => rfl
  | cons d l ih =>
    rw [List.reverse_cons, ofDigitsBE_append, Nat.ofDigits_cons, ih]
    simp [ofDigitsBE]
    ring

theorem natDigitsRevAux_eq_digits (fuel n : Nat) (h : n ≤ fuel) :
    natDigitsRevAux fuel n = Nat.digits 10 n := by
  induction fuel generalizing n with
  | zero =>
    interval_cases n
    simp [natDigitsRevAux]
  | succ fuel ih =>
    match n with
    | 0 => simp [natDigitsRevAux]
    | m + 1 =>
      rw [natDigitsRevAux]
      rw [Nat.digits_def' (by norm_num : 1 < 10) (Nat.succ_pos m)]
      congr 1
      exact ih _ (by omega)

theorem natDigitsBE_eq (n : Nat) : natDigitsBE n = (Nat.digits 10 n).reverse := by
  unfold natDigitsBE
  rw [natDigitsRevAux_eq_digits n n le_rfl]

theorem ofDigitsBE_natDigitsBE (n : Nat) : ofDigitsBE (natDigitsBE n) = n := by
  rw [natDigitsBE_eq, ofDigitsBE_reverse]
  exact_mod_cast Nat.ofDigits_digits 10 n

theorem ofDigitsBE_digitsOrZero (n : Nat) : ofDigitsBE (digitsOrZero n) = n := by
  unfold digitsOrZero
  split
  · simp_all [ofDigitsBE]
  · exact ofDigitsBE_natDigitsBE n

theorem digitsOrZero_ne_nil (n : Nat) : digitsOrZero n ≠ [] := by
  unfold digitsOrZero
  split
  · simp
  · rw [natDigitsBE_eq]
    simp [Nat.digits_ne_nil_iff_ne_zero, *]

theorem digitsOrZero_lt (n : Nat) : ∀ d ∈ digitsOrZero n, d < 10 := by
  intro d hd
  unfold digitsOrZero at hd
  split at hd
  · simp at hd; omega
  · rw [natDigitsBE_eq, List.mem_reverse] at hd
    exact Nat.digits_lt_base (by norm_num) hd

theorem zeroDigits_lt (k : Nat) : ∀ d ∈ zeroDigits k, d < 10 := by
  intro d hd
  simp [zeroDigits] at hd
  omega

/-! ## NativeDecimal: `bigdecimal::BigDecimal`

Modelled from the spec: a NativeDecimal is "logically
`(unscaled_integer: arbitrary-precision signed integer, scale: integer)`,
representing `unscaled_integer × 10^-scale`. Always finite." (§3).
Field names follow the `bigdecimal` crate (`int_val`, `scale`). -/

structure BigDecimal where
  int_val : Int
  scale : Int
deriving DecidableEq, Repr

/-- `BigDecimal::zero()`. -/
def BigDecimal.zero : BigDecimal := ⟨0, 0⟩

/-- `BigDecimal::one()`. -/
def BigDecimal.one : BigDecimal := ⟨1, 0⟩

/-- Modelled from the spec: the integer fast path's direct construction,
`<BigDecimal as From<i64>>::from(val)` — the integer with scale 0. -/
def BigDecimal.fromI64 (i : Int) : BigDecimal := ⟨i, 0⟩

/-- Modelled from the spec: the native type's own equality (`==` on
`BigDecimal`), which compares numeric values by aligning the two scales. -/
def BigDecimal.beq (a b : BigDecimal) : Bool :=
  if a.scale ≤ b.scale then
    decide (a.int_val * 10 ^ (b.scale - a.scale).toNat = b.int_val)
  else
    decide (a.int_val = b.int_val * 10 ^ (a.scale - b.scale).toNat)

/-! ## Canonical decimal strings: rendering

Modelled from the spec: "Render the NativeDecimal to its canonical decimal
string (exact digits, exact scale — no rounding, no normalization of
trailing zeros beyond what the native type's own string form already
applies)" (§4, `to_foreign` step 1), and `render_canonical_string` (§6). -/

/-- The sign prefix of a rendered decimal. -/
def signChars (neg : Bool) : List Char := if neg then ['-'] else []

/-- Plain (point) notation: digit list `ds` with `s` digits after the
decimal point, left-padded with zeros so an integer part exists.
`renderPlain false [1,2] 1 = "1.2"`, `renderPlain true [5] 2 = "-0.05"`. -/
def renderPlain (neg : Bool) (ds : List Nat) (s : Nat) : String :=
  if s = 0 then ⟨signChars neg ++ ds.map digitChar⟩
  else
    let padded := zeroDigits (s + 1 - ds.length) ++ ds
    let intLen := padded.length - s
    ⟨signChars neg ++ (padded.take intLen).map digitChar ++
      '.' :: (padded.drop intLen).map digitChar⟩

/-- Scientific notation with adjusted exponent `adj`: one leading digit, the
remaining digits after a point, then `E`, an explicit exponent sign, and the
exponent digits — the foreign renderer's exponential form. -/
def renderSci (neg : Bool) (ds : List Nat) (adj : Int) : String :=
  ⟨signChars neg ++ [digitChar (ds.headD 0)] ++
    (if ds.length ≤ 1 then [] else '.' :: (ds.tail.map digitChar)) ++
    'E' :: (if adj < 0 then '-' else '+') :: (digitsOrZero adj.natAbs).map digitChar⟩

/-- Modelled from the spec: `self.to_string()` on a NativeDecimal — the
exact canonical decimal string. For a nonnegative scale the digits are
rendered with `scale` fractional places; for a negative scale the unscaled
digits are followed by `-scale` zeros (no rounding, no digit loss). -/
def BigDecimal.to_string (a : BigDecimal) : String :=
  if a.scale ≤ 0 then
    renderPlain (decide (a.int_val < 0))
      (digitsOrZero a.int_val.natAbs ++ zeroDigits (-a.scale).toNat) 0
  else
    renderPlain (decide (a.int_val < 0)) (digitsOrZero a.int_val.natAbs) a.scale.toNat

/-- Modelled from the spec: the canonical string of a machine integer
(`str()` of a foreign integer object). -/
def intToString (i : Int) : String :=
  renderPlain (decide (i < 0)) (digitsOrZero i.natAbs) 0

/-! ## Canonical decimal strings: the lossless parser

Modelled from the spec: "parse that string into a NativeDecimal using a
lossless decimal-string parser" (§4, `from_foreign` step 2); "any
syntactically valid decimal string must parse successfully" (step 4).
Syntax: optional sign, digits with at most one decimal point (at least one
digit), and an optional `e`/`E` exponent with optional sign. -/

/-- Consume a maximal prefix of ASCII digits, returning their values and
the rest of the input. -/
def spanDigits : List Char → List Nat × List Char
  | [] => ([], [])
  | c :: r =>
    if isDigitChar c then ((c.toNat - 48) :: (spanDigits r).1, (spanDigits r).2)
    else ([], c :: r)

/-- Consume one optional leading sign character. -/
def parseSign (cs : List Char) : Bool × List Char :=
  match cs with
  | [] => (false, [])
  | c :: r => if c = '-' then (true, r) else if c = '+' then (false, r) else (false, cs)

/-- Split the input at the first `e`/`E`, returning the mantissa part and,
when present, the exponent part. -/
def splitExp : List Char → List Char × Option (List Char)
  | [] => ([], none)
  | c :: r =>
    if c = 'e' ∨ c = 'E' then ([], some r)
    else ((c :: (splitExp r).1), (splitExp r).2)

/-- Parse an unsigned mantissa: digits with at most one point, at least one
digit, nothing left over. Returns all digits as written plus the number of
fractional digits. -/
def parseUnsignedBase (cs : List Char) : Option (List Nat × Nat) :=
  let p := spanDigits cs
  match p.2 with
  | [] => if p.1.isEmpty then none else some (p.1, 0)
  | c :: r2 =>
    if c = '.' then
      let q := spanDigits r2
      if q.2.isEmpty && !(p.1.isEmpty && q.1.isEmpty) then
        some (p.1 ++ q.1, q.1.length)
      else none
    else none

/-- Parse a signed exponent: optional sign then at least one digit. -/
def parseExpPart (cs : List Char) : Option Int :=
  let sp := parseSign cs
  let q := spanDigits sp.2
  if q.2.isEmpty && !q.1.isEmpty then
    some (if sp.1 then -(ofDigitsBE q.1 : Int) else (ofDigitsBE q.1 : Int))
  else none

/-- Parse a full decimal literal into (negative sign, digits as written,
scale), where `scale = fractional digit count − exponent`; the denoted
value is `± digits × 10^-scale`. `none` on anything that is not a valid
finite decimal literal (in particular `NaN` and `Infinity` forms). -/
def parseDecParts (s : String) : Option (Bool × List Nat × Int) :=
  let sp := splitExp s.data
  let sg := parseSign sp.1
  match parseUnsignedBase sg.2 with
  | none => none
  | some (ds, fracLen) =>
    match sp.2 with
    | none => some (sg.1, ds, (fracLen : Int))
    | some ec =>
      match parseExpPart ec with
      | some e => some (sg.1, ds, (fracLen : Int) - e)
      | none => none

/-- Modelled from the spec: `BigDecimal::from_str` — the lossless decimal
string parser of the native library. The sign folds into the unscaled
integer (so a parsed `-0` is the plain integer zero). -/
def BigDecimal.from_str (s : String) : Option BigDecimal :=
  (parseDecParts s).map fun p =>
    ⟨if p.1 then -(ofDigitsBE p.2.1 : Int) else (ofDigitsBE p.2.1 : Int), p.2.2⟩

/-- Strip one leading sign character (grammar-side counterpart of
`parseSign`). -/
def stripSign (cs : List Char) : List Char :=
  match cs with
  | [] => []
  | c :: r => if c = '-' then r else if c = '+' then r else cs

/-- The decimal-literal grammar, stated independently of the parser: an
unsigned mantissa is a nonempty-digit string with at most one point. -/
def validUnsignedBase (cs : List Char) : Bool :=
  cs.any isDigitChar && cs.all (fun c => isDigitChar c || c == '.') &&
    decide ((cs.filter (fun c => c == '.')).length ≤ 1)

/-- The grammar of an exponent part: optional sign, then nonempty digits. -/
def validExpPart (cs : List Char) : Bool :=
  !(stripSign cs).isEmpty && (stripSign cs).all isDigitChar

/-- A syntactically valid finite decimal literal: signed mantissa with
optional `e`/`E`-separated signed exponent. -/
def isValidDecimalString (s : String) : Bool :=
  match (splitExp s.data).2 with
  | none => validUnsignedBase (stripSign (splitExp s.data).1)
  | some ec => validUnsignedBase (stripSign (splitExp s.data).1) && validExpPart ec

/-! ## ForeignDecimal: Python's `decimal.Decimal`

Modelled from the spec: "It supports three categories: *finite*
(representable exactly as a decimal digit string with optional sign and
exponent), *NaN*, and *Infinity* (signed or unsigned)" (§3). A finite
value is a sign, an unsigned coefficient, and an exponent, denoting
`± coeff × 10^exp`; the sign is carried separately, so a negative zero
exists in this family. -/

inductive PyDecimal where
  | finite (sign : Bool) (coeff : Nat) (exp : Int)
  | nan
  | inf (sign : Bool)
deriving DecidableEq, Repr

/-- Is the foreign value in the finite category? -/
def PyDecimal.isFinite : PyDecimal → Bool
  | .finite _ _ _ => true
  | _ => false

/-- Modelled from the spec: `construct(handle, canonical_string)` — the
foreign `decimal.Decimal` constructor, which "losslessly parse[s] any
syntactically valid decimal string" (§6) keeping sign, digits, and
exponent, and also accepts the non-finite markers. -/
def PyDecimal.construct (s : String) : Option PyDecimal :=
  match parseDecParts s with
  | some (neg, ds, sc) => some (.finite neg (ofDigitsBE ds) (-sc))
  | none =>
    if s = "NaN" ∨ s = "nan" then some .nan
    else if s = "Infinity" ∨ s = "inf" ∨ s = "Inf" then some (.inf false)
    else if s = "-Infinity" ∨ s = "-inf" ∨ s = "-Inf" then some (.inf true)
    else none

/-- Modelled from the spec: `render_canonical_string` (§6) — the foreign
value's exact textual decimal representation (Python's `str()`), "including
non-finite markers (`NaN`, `Infinity`, `-Infinity`) when applicable". A
finite value uses plain notation when `exp ≤ 0` and the adjusted exponent
is at least −6, scientific notation otherwise. -/
def PyDecimal.str : PyDecimal → String
  | .nan => "NaN"
  | .inf sg => if sg then "-Infinity" else "Infinity"
  | .finite sg c e =>
    let ds := digitsOrZero c
    let adj : Int := e + ds.length - 1
    if e ≤ 0 ∧ -6 ≤ adj then renderPlain sg ds (-e).toNat
    else renderSci sg ds adj

/-- Modelled from the spec: the foreign `==` on decimal values — numeric
comparison; a NaN compares unequal to everything, infinities compare by
sign, finite values compare after aligning exponents. -/
def PyDecimal.beq : PyDecimal → PyDecimal → Bool
  | .finite s1 c1 e1, .finite s2 c2 e2 =>
    let v1 : Int := if s1 then -(c1 : Int) else c1
    let v2 : Int := if s2 then -(c2 : Int) else c2
    if e1 ≤ e2 then decide (v1 = v2 * 10 ^ (e2 - e1).toNat)
    else decide (v1 * 10 ^ (e1 - e2).toNat = v2)
  | .inf s1, .inf s2 => s1 == s2
  | _, _ => false

/-! ## The foreign objects reaching the bridge

`extract_bound` receives an arbitrary Python object. The cases that matter
are machine integers, `decimal.Decimal` instances, and anything else, which
the bridge only ever observes through its `str()` text. -/

inductive PyObj where
  | int (i : Int)
  | dec (d : PyDecimal)
  | strObj (s : String)
deriving DecidableEq, Repr

/-- Modelled from the spec: `is_exact_machine_integer` (§6) — PyO3's
`obj.extract::<i64>()`. It succeeds exactly on integer objects within the
64-bit signed range; `decimal.Decimal` and other objects do not support
the integer protocol used, so extraction fails on them. -/
def PyObj.extractI64 : PyObj → Option Int
  | .int i => if -(2 ^ 63) ≤ i ∧ i < 2 ^ 63 then some i else none
  | _ => none

/-- Modelled from the spec: `obj.str()` — the canonical textual form of the
object (§6 `render_canonical_string`; for integers, their decimal digits;
for a string object, itself). -/
def PyObj.str : PyObj → String
  | .int i => intToString i
  | .dec d => d.str
  | .strObj s => s

/-- The error type of extraction: `PyValueError::new_err(e.to_string())`.
The carried string stands for the parser's diagnostic message; the model
records the offending input text. -/
inductive PyErr where
  | valueError (msg : String)
deriving DecidableEq, Repr

/-! ## The bridge itself (translated from the source) -/

/-- `impl FromPyObject for BigDecimal { fn extract_bound }`
(src/conversions/bigdecimal.rs:61-71): try the `i64` fast path first and
build the decimal via `From<i64>`; otherwise render the object to its
string form and parse it with `BigDecimal::from_str`, mapping a parse
failure to a `PyValueError`. -/
def extract_bound (obj : PyObj) : Except PyErr BigDecimal :=
  match obj.extractI64 with
  | some val => .ok (BigDecimal.fromI64 val)
  | none =>
    match BigDecimal.from_str obj.str with
    | some d => .ok d
    | none => .error (.valueError obj.str)

/-- `impl ToPyObject for BigDecimal { fn to_object }`
(src/conversions/bigdecimal.rs:79-91): stringify the `BigDecimal` and call
the cached `decimal.Decimal` constructor on that string. The two `expect`
calls are the `none` case: resolution of the constructor handle is an
environment fault outside the data model (§7), so the model keeps only the
constructor invocation, which fails exactly when the string is not a valid
decimal literal. -/
def to_object (a : BigDecimal) : Option PyDecimal :=
  PyDecimal.construct a.to_string

/-- `impl IntoPy<PyObject> for BigDecimal { fn into_py }`
(src/conversions/bigdecimal.rs:93-97): delegates to `to_object`. -/
def into_py (a : BigDecimal) : Option PyDecimal :=
  to_object a

instance : DecidableEq (Except PyErr BigDecimal) := fun a b =>
  match a, b with
  | .ok x, .ok y => decidable_of_iff (x = y) (by simp)
  | .error x, .error y => decidable_of_iff (x = y) (by simp)
  | .ok _, .error _ => isFalse (by simp)
  | .error _, .ok _ => isFalse (by simp)

/-! ## Character-level lemmas -/

theorem digitChar_toNat {d : Nat} (h : d < 10) : (digitChar d).toNat = 48 + d := by
  interval_cases d <;> rfl

theorem isDigitChar_digitChar {d : Nat} (h : d < 10) :
    isDigitChar (digitChar d) = true := by
  interval_cases d <;> decide

theorem digitChar_not_sign {d : Nat} (h : d < 10) :
    ¬(digitChar d = '-' ∨ digitChar d = '+') := by
  interval_cases d <;> decide

theorem digitChar_not_e {d : Nat} (h : d < 10) :
    ¬(digitChar d = 'e' ∨ digitChar d = 'E') := by
  interval_cases d <;> decide

/-! ## Parser evaluation lemmas: how the parser consumes rendered text -/

theorem spanDigits_map (A : List Nat) (r : List Char)
    (hA : ∀ a ∈ A, a < 10)
    (hr : ∀ c, r.head? = some c → isDigitChar c = false) :
    spanDigits (A.map digitChar ++ r) = (A, r) := by
  induction A with
  | nil =>
    simp only [List.map_nil, List.nil_append]
    match r with
    | [] => rfl
    | c :: r' =>
      have hc := hr c rfl
      simp [spanDigits, hc]
  | cons a A ih =>
    have ha : a < 10 := hA a (by simp)
    have h1 : isDigitChar (digitChar a) = true := isDigitChar_digitChar ha
    have h2 : (digitChar a).toNat - 48 = a := by rw [digitChar_toNat ha]; omega
    have ihA := ih (fun x hx => hA x (by simp [hx]))
    simp [spanDigits, h1, h2, ihA]

theorem splitExp_no_e (cs : List Char) (h : ∀ c ∈ cs, ¬(c = 'e' ∨ c = 'E')) :
    splitExp cs = (cs, none) := by
  induction cs with
  | nil => rfl
  | cons c r ih =>
    have hc := h c (by simp)
    have ihr := ih (fun x hx => h x (by simp [hx]))
    simp [splitExp, hc, ihr]

theorem splitExp_append (cs r : List Char) (h : ∀ c ∈ cs, ¬(c = 'e' ∨ c = 'E')) :
    splitExp (cs ++ 'E' :: r) = (cs, some r) := by
  induction cs with
  | nil => simp [splitExp]
  | cons c t ih =>
    have hc := h c (by simp)
    have iht := ih (fun x hx => h x (by simp [hx]))
    simp [splitExp, hc, iht]

theorem parseSign_signChars (neg : Bool) (l : List Char)
    (h : ∀ c, l.head? = some c → ¬(c = '-' ∨ c = '+')) :
    parseSign (signChars neg ++ l) = (neg, l) := by
  cases neg with
  | true => simp [signChars, parseSign]
  | false =>
    simp only [signChars, if_neg Bool.false_ne_true, List.nil_append]
    match l with
    | [] => rfl
    | c :: r =>
      have hc := h c rfl
      push_neg at hc
      simp [parseSign, hc.1, hc.2]

theorem parseUnsignedBase_digits (A : List Nat) (hA : ∀ a ∈ A, a < 10) (hne : A ≠ []) :
    parseUnsignedBase (A.map digitChar) = some (A, 0) := by
  have hs : spanDigits (A.map digitChar) = (A, []) := by
    have := spanDigits_map A [] hA (by simp)
    simpa using this
  simp [parseUnsignedBase, hs, hne]

theorem parseUnsignedBase_point (A B : List Nat)
    (hA : ∀ a ∈ A, a < 10) (hB : ∀ b ∈ B, b < 10)
    (hne : ¬(A = [] ∧ B = [])) :
    parseUnsignedBase (A.map digitChar ++ '.' :: B.map digitChar) =
      some (A ++ B, B.length) := by
  have h1 : spanDigits (A.map digitChar ++ '.' :: B.map digitChar) =
      (A, '.' :: B.map digitChar) := by
    apply spanDigits_map A _ hA
    intro c hc
    simp at hc
    subst hc
    decide
  have h2 : spanDigits (B.map digitChar) = (B, []) := by
    have := spanDigits_map B [] hB (by simp)
    simpa using this
  have hdot : spanDigits ('.' :: B.map digitChar) = ([], '.' :: B.map digitChar) := by
    simp [spanDigits, show isDigitChar '.' = false from rfl]
  by_cases hAe : A = []
  · have hBe : B ≠ [] := fun h => hne ⟨hAe, h⟩
    simp [parseUnsignedBase, h1, h2, hAe, hBe, hdot]
  · simp [parseUnsignedBase, h1, h2, hAe]

theorem parseExpPart_render (adj : Int) :
    parseExpPart ((if adj < 0 then '-' else '+') ::
      (digitsOrZero adj.natAbs).map digitChar) = some adj := by
  have hspan : spanDigits ((digitsOrZero adj.natAbs).map digitChar) =
      (digitsOrZero adj.natAbs, []) := by
    have := spanDigits_map _ [] (digitsOrZero_lt adj.natAbs) (by simp)
    simpa using this
  by_cases h : adj < 0
  · simp only [if_pos h]
    simp [parseExpPart, parseSign, hspan, digitsOrZero_ne_nil,
      ofDigitsBE_digitsOrZero]
    simp [abs_of_neg h]
  · simp only [if_neg h]
    simp [parseExpPart, parseSign, hspan, digitsOrZero_ne_nil,
      ofDigitsBE_digitsOrZero]
    omega

theorem parseDecParts_digits_parts (neg : Bool) (A : List Nat)
    (hA : ∀ a ∈ A, a < 10) (hAne : A ≠ []) :
    parseDecParts ⟨signChars neg ++ A.map digitChar⟩ = some (neg, A, (0 : Int)) := by
  obtain ⟨d0, tl, rfl⟩ := List.exists_cons_of_ne_nil hAne
  have hsplit : splitExp (signChars neg ++ (d0 :: tl).map digitChar) =
      (signChars neg ++ (d0 :: tl).map digitChar, none) := by
    apply splitExp_no_e
    intro c hc
    rcases List.mem_append.mp hc with h1 | h2
    · cases neg
      · simp [signChars] at h1
      · simp [signChars] at h1
        subst h1; decide
    · obtain ⟨a, ha, rfl⟩ := List.mem_map.mp h2
      exact digitChar_not_e (hA a ha)
  have hsign : parseSign (signChars neg ++ (d0 :: tl).map digitChar) =
      (neg, (d0 :: tl).map digitChar) := by
    apply parseSign_signChars
    intro c hc
    simp only [List.map_cons, List.head?_cons, Option.some.injEq] at hc
    subst hc
    exact digitChar_not_sign (hA d0 (by simp))
  have hbase := parseUnsignedBase_digits (d0 :: tl) hA (by simp)
  simp only [List.map_cons] at hsplit hsign hbase
  simp [parseDecParts, hsplit, hsign, hbase]

theorem parseDecParts_plain_parts (neg : Bool) (A B : List Nat)
    (hA : ∀ a ∈ A, a < 10) (hB : ∀ b ∈ B, b < 10) (hAne : A ≠ []) :
    parseDecParts ⟨signChars neg ++ A.map digitChar ++ '.' :: B.map digitChar⟩ =
      some (neg, A ++ B, (B.length : Int)) := by
  obtain ⟨d0, tl, rfl⟩ := List.exists_cons_of_ne_nil hAne
  have hsplit : splitExp (signChars neg ++ (d0 :: tl).map digitChar ++
      '.' :: B.map digitChar) =
      (signChars neg ++ (d0 :: tl).map digitChar ++ '.' :: B.map digitChar, none) := by
    apply splitExp_no_e
    intro c hc
    rcases List.mem_append.mp hc with h1 | h2
    · rcases List.mem_append.mp h1 with h3 | h4
      · cases neg
        · simp [signChars] at h3
        · simp [signChars] at h3
          subst h3; decide
      · obtain ⟨a, ha, rfl⟩ := List.mem_map.mp h4
        exact digitChar_not_e (hA a ha)
    · rcases List.mem_cons.mp h2 with h5 | h6
      · subst h5; decide
      · obtain ⟨b, hb, rfl⟩ := List.mem_map.mp h6
        exact digitChar_not_e (hB b hb)
  have hsign : parseSign (signChars neg ++ ((d0 :: tl).map digitChar ++
      '.' :: B.map digitChar)) =
      (neg, (d0 :: tl).map digitChar ++ '.' :: B.map digitChar) := by
    apply parseSign_signChars
    intro c hc
    simp only [List.map_cons, List.cons_append, List.head?_cons,
      Option.some.injEq] at hc
    subst hc
    exact digitChar_not_sign (hA d0 (by simp))
  have hbase := parseUnsignedBase_point (d0 :: tl) B hA hB (by simp)
  simp only [List.map_cons, List.cons_append, List.append_assoc] at hsplit hsign hbase
  simp [parseDecParts, hsplit, hsign, hbase]

theorem parseDecParts_renderPlain (neg : Bool) (ds : List Nat) (s : Nat)
    (hne : ds ≠ []) (hlt : ∀ d ∈ ds, d < 10) :
    parseDecParts (renderPlain neg ds s) =
      some (neg, zeroDigits (s + 1 - ds.length) ++ ds, (s : Int)) := by
  have hlen : 1 ≤ ds.length := List.length_pos.mpr hne
  by_cases hs : s = 0
  · subst hs
    have hz : zeroDigits (0 + 1 - ds.length) = [] := by
      have : 0 + 1 - ds.length = 0 := by omega
      rw [this]; rfl
    rw [renderPlain, if_pos rfl, hz, List.nil_append]
    exact parseDecParts_digits_parts neg ds hlt hne
  · have hplen : (zeroDigits (s + 1 - ds.length) ++ ds).length =
        (s + 1 - ds.length) + ds.length := by
      simp [zeroDigits]
    have hsle : s + 1 ≤ (zeroDigits (s + 1 - ds.length) ++ ds).length := by omega
    have hpvalid : ∀ x ∈ zeroDigits (s + 1 - ds.length) ++ ds, x < 10 := by
      intro x hx
      rcases List.mem_append.mp hx with h | h
      · exact zeroDigits_lt _ x h
      · exact hlt x h
    rw [renderPlain, if_neg hs]
    have hA : ∀ x ∈ (zeroDigits (s + 1 - ds.length) ++ ds).take
        ((zeroDigits (s + 1 - ds.length) ++ ds).length - s), x < 10 :=
      fun x hx => hpvalid x (List.mem_of_mem_take hx)
    have hB : ∀ x ∈ (zeroDigits (s + 1 - ds.length) ++ ds).drop
        ((zeroDigits (s + 1 - ds.length) ++ ds).length - s), x < 10 :=
      fun x hx => hpvalid x (List.mem_of_mem_drop hx)
    have hzlen : (zeroDigits (s + 1 - ds.length)).length = s + 1 - ds.length := by
      simp [zeroDigits]
    have hAne : (zeroDigits (s + 1 - ds.length) ++ ds).take
        ((zeroDigits (s + 1 - ds.length) ++ ds).length - s) ≠ [] := by
      intro hcon
      have hL := congrArg List.length hcon
      rw [List.length_take] at hL
      simp only [List.length_append, hzlen, List.length_nil] at hL
      omega
    rw [parseDecParts_plain_parts neg _ _ hA hB hAne]
    rw [List.take_append_drop]
    have hBlen : ((zeroDigits (s + 1 - ds.length) ++ ds).drop
        ((zeroDigits (s + 1 - ds.length) ++ ds).length - s)).length = s := by
      rw [List.length_drop]
      simp only [List.length_append, hzlen]
      omega
    rw [hBlen]

theorem parseDecParts_renderSci (neg : Bool) (ds : List Nat) (adj : Int)
    (hne : ds ≠ []) (hlt : ∀ d ∈ ds, d < 10) :
    parseDecParts (renderSci neg ds adj) =
      some (neg, ds, (ds.length : Int) - 1 - adj) := by
  obtain ⟨d0, tl, rfl⟩ := List.exists_cons_of_ne_nil hne
  by_cases htl : tl = []
  · subst htl
    have hmid : ((d0 :: ([] : List Nat)).length ≤ 1) = True := by simp
    have hsplit : splitExp (signChars neg ++ [digitChar d0] ++
        'E' :: (if adj < 0 then '-' else '+') ::
          (digitsOrZero adj.natAbs).map digitChar) =
        (signChars neg ++ [digitChar d0],
          some ((if adj < 0 then '-' else '+') ::
            (digitsOrZero adj.natAbs).map digitChar)) := by
      have hmem : ∀ c ∈ signChars neg ++ [digitChar d0], ¬(c = 'e' ∨ c = 'E') := by
        intro c hc
        rcases List.mem_append.mp hc with h1 | h2
        · cases neg
          · simp [signChars] at h1
          · simp [signChars] at h1
            subst h1; decide
        · simp at h2
          subst h2
          exact digitChar_not_e (hlt d0 (by simp))
      have := splitExp_append (signChars neg ++ [digitChar d0])
        ((if adj < 0 then '-' else '+') :: (digitsOrZero adj.natAbs).map digitChar) hmem
      simpa [List.append_assoc] using this
    have hsign : parseSign (signChars neg ++ [digitChar d0]) =
        (neg, [digitChar d0]) := by
      apply parseSign_signChars
      intro c hc
      simp at hc
      subst hc
      exact digitChar_not_sign (hlt d0 (by simp))
    have hbase : parseUnsignedBase [digitChar d0] = some ([d0], 0) := by
      have := parseUnsignedBase_digits [d0] (by simpa using hlt d0 (by simp)) (by simp)
      simpa using this
    have hexp := parseExpPart_render adj
    simp only [renderSci, List.headD_cons, List.length_cons, List.length_nil] at *
    simp only [List.map_cons, List.map_nil, List.cons_append, List.nil_append,
      List.append_assoc] at hsplit hsign hbase ⊢
    simp [parseDecParts, hsplit, hsign, hbase, hexp]
  · have hlen2 : ¬((d0 :: tl).length ≤ 1) := by
      have := List.length_pos.mpr htl
      simp only [List.length_cons]
      omega
    have hmem : ∀ c ∈ signChars neg ++ (d0 :: tl).map digitChar ++
        '.' :: tl.map digitChar, True := fun _ _ => trivial
    have hsplit : splitExp (signChars neg ++ [digitChar d0] ++
        '.' :: tl.map digitChar ++
        'E' :: (if adj < 0 then '-' else '+') ::
          (digitsOrZero adj.natAbs).map digitChar) =
        (signChars neg ++ [digitChar d0] ++ '.' :: tl.map digitChar,
          some ((if adj < 0 then '-' else '+') ::
            (digitsOrZero adj.natAbs).map digitChar)) := by
      have hmemE : ∀ c ∈ signChars neg ++ [digitChar d0] ++ '.' :: tl.map digitChar,
          ¬(c = 'e' ∨ c = 'E') := by
        intro c hc
        rcases List.mem_append.mp hc with h1 | h2
        · rcases List.mem_append.mp h1 with h3 | h4
          · cases neg
            · simp [signChars] at h3
            · simp [signChars] at h3
              subst h3; decide
          · simp at h4
            subst h4
            exact digitChar_not_e (hlt d0 (by simp))
        · rcases List.mem_cons.mp h2 with h5 | h6
          · subst h5; decide
          · obtain ⟨b, hb, rfl⟩ := List.mem_map.mp h6
            exact digitChar_not_e (hlt b (by simp [hb]))
      have := splitExp_append (signChars neg ++ [digitChar d0] ++
        '.' :: tl.map digitChar)
        ((if adj < 0 then '-' else '+') :: (digitsOrZero adj.natAbs).map digitChar) hmemE
      simpa [List.append_assoc] using this
    have hsign : parseSign (signChars neg ++ ([digitChar d0] ++
        '.' :: tl.map digitChar)) =
        (neg, [digitChar d0] ++ '.' :: tl.map digitChar) := by
      apply parseSign_signChars
      intro c hc
      simp at hc
      subst hc
      exact digitChar_not_sign (hlt d0 (by simp))
    have hbase : parseUnsignedBase ([d0].map digitChar ++ '.' :: tl.map digitChar) =
        some ([d0] ++ tl, tl.length) := by
      apply parseUnsignedBase_point [d0] tl
      · simpa using hlt d0 (by simp)
      · intro b hb; exact hlt b (by simp [hb])
      · simp
    have hexp := parseExpPart_render adj
    simp only [renderSci, List.headD_cons, if_neg hlen2] at *
    simp only [List.map_cons, List.map_nil, List.cons_append, List.nil_append,
      List.append_assoc, List.singleton_append] at hsplit hsign hbase ⊢
    simp [parseDecParts, hsplit, hsign, hbase, hexp]

theorem from_str_renderPlain (neg : Bool) (ds : List Nat) (s : Nat)
    (hne : ds ≠ []) (hlt : ∀ d ∈ ds, d < 10) :
    BigDecimal.from_str (renderPlain neg ds s) =
      some ⟨if neg then -(ofDigitsBE ds : Int) else (ofDigitsBE ds : Int), (s : Int)⟩ := by
  unfold BigDecimal.from_str
  rw [parseDecParts_renderPlain neg ds s hne hlt]
  simp [ofDigitsBE_leading_zeros]

theorem from_str_renderSci (neg : Bool) (ds : List Nat) (adj : Int)
    (hne : ds ≠ []) (hlt : ∀ d ∈ ds, d < 10) :
    BigDecimal.from_str (renderSci neg ds adj) =
      some ⟨if neg then -(ofDigitsBE ds : Int) else (ofDigitsBE ds : Int),
        (ds.length : Int) - 1 - adj⟩ := by
  unfold BigDecimal.from_str
  rw [parseDecParts_renderSci neg ds adj hne hlt]
  rfl

theorem construct_renderPlain (neg : Bool) (ds : List Nat) (s : Nat)
    (hne : ds ≠ []) (hlt : ∀ d ∈ ds, d < 10) :
    PyDecimal.construct (renderPlain neg ds s) =
      some (.finite neg (ofDigitsBE ds) (-(s : Int))) := by
  unfold PyDecimal.construct
  rw [parseDecParts_renderPlain neg ds s hne hlt]
  simp [ofDigitsBE_leading_zeros]

/-- Master lemma for the foreign→native direction on `decimal.Decimal`
instances: extracting a finite foreign decimal `± c × 10^e` always succeeds
and yields the native value with unscaled integer `±c` and scale `-e`. -/
theorem extract_bound_dec_finite (sg : Bool) (c : Nat) (e : Int) :
    extract_bound (.dec (.finite sg c e)) =
      .ok ⟨if sg then -(c : Int) else (c : Int), -e⟩ := by
  have hne := digitsOrZero_ne_nil c
  have hlt := digitsOrZero_lt c
  unfold extract_bound
  have hi : (PyObj.dec (.finite sg c e)).extractI64 = none := rfl
  rw [hi]
  by_cases hp : e ≤ 0 ∧ -6 ≤ (e + ((digitsOrZero c).length : Int) - 1)
  · have hstr : (PyObj.dec (.finite sg c e)).str =
        renderPlain sg (digitsOrZero c) (-e).toNat := by
      simp [PyObj.str, PyDecimal.str, hp]
    rw [hstr, from_str_renderPlain sg _ _ hne hlt]
    rw [ofDigitsBE_digitsOrZero]
    have he : (((-e).toNat : Nat) : Int) = -e := Int.toNat_of_nonneg (by omega)
    rw [he]
  · have hstr : (PyObj.dec (.finite sg c e)).str =
        renderSci sg (digitsOrZero c) (e + ((digitsOrZero c).length : Int) - 1) := by
      simp only [PyObj.str, PyDecimal.str]
      rw [if_neg hp]
    rw [hstr, from_str_renderSci sg _ _ hne hlt]
    rw [ofDigitsBE_digitsOrZero]
    have he : ((digitsOrZero c).length : Int) - 1 -
        (e + ((digitsOrZero c).length : Int) - 1) = -e := by ring
    rw [he]

/-- Master lemma for the native→foreign direction: `to_object` always
succeeds, and the constructed foreign decimal carries the sign of the
unscaled integer; for nonnegative scale the digits and exponent carry over
exactly, for negative scale the trailing zeros are materialised into the
coefficient. -/
theorem to_object_eq (a : BigDecimal) :
    to_object a = some (if a.scale ≤ 0 then
        PyDecimal.finite (decide (a.int_val < 0))
          (a.int_val.natAbs * 10 ^ (-a.scale).toNat) 0
      else
        PyDecimal.finite (decide (a.int_val < 0)) a.int_val.natAbs (-a.scale)) := by
  unfold to_object BigDecimal.to_string
  by_cases hs : a.scale ≤ 0
  · rw [if_pos hs, if_pos hs]
    have hne : digitsOrZero a.int_val.natAbs ++ zeroDigits (-a.scale).toNat ≠ [] := by
      intro h
      exact digitsOrZero_ne_nil _ (List.append_eq_nil.mp h).1
    have hlt : ∀ d ∈ digitsOrZero a.int_val.natAbs ++ zeroDigits (-a.scale).toNat,
        d < 10 := by
      intro d hd
      rcases List.mem_append.mp hd with h | h
      · exact digitsOrZero_lt _ d h
      · exact zeroDigits_lt _ d h
    rw [construct_renderPlain _ _ _ hne hlt]
    rw [ofDigitsBE_trailing_zeros, ofDigitsBE_digitsOrZero]
    simp
  · rw [if_neg hs, if_neg hs]
    rw [construct_renderPlain _ _ _ (digitsOrZero_ne_nil _) (digitsOrZero_lt _)]
    rw [ofDigitsBE_digitsOrZero]
    have ht : ((a.scale.toNat : Nat) : Int) = a.scale := Int.toNat_of_nonneg (by omega)
    rw [ht]

/-! ## The grammar accepts exactly what the parser consumes -/

theorem spanDigits_eq (cs : List Char) :
    spanDigits cs = ((cs.takeWhile isDigitChar).map (fun c => c.toNat - 48),
      cs.dropWhile isDigitChar) := by
  induction cs with
  | nil => rfl
  | cons c r ih =>
    by_cases h : isDigitChar c
    · simp [spanDigits, h, List.takeWhile_cons, List.dropWhile_cons, ih]
    · simp [spanDigits, h, List.takeWhile_cons, List.dropWhile_cons]

theorem dropWhile_head_false {p : Char → Bool} :
    ∀ (l : List Char) {c : Char} {r : List Char},
      l.dropWhile p = c :: r → p c = false := by
  intro l
  induction l with
  | nil => intro c r h; simp [List.dropWhile] at h
  | cons a t ih =>
    intro c r h
    by_cases hp : p a
    · rw [List.dropWhile_cons, if_pos hp] at h
      exact ih h
    · rw [List.dropWhile_cons, if_neg hp] at h
      cases h
      simpa using hp

theorem validUnsignedBase_parse (cs : List Char) (h : validUnsignedBase cs = true) :
    (parseUnsignedBase cs).isSome := by
  unfold validUnsignedBase at h
  rw [Bool.and_eq_true, Bool.and_eq_true] at h
  obtain ⟨⟨hany, hall⟩, hcount⟩ := h
  rw [List.any_eq_true] at hany
  rw [List.all_eq_true] at hall
  rw [decide_eq_true_eq] at hcount
  obtain ⟨cd, hcdmem, hcddig⟩ := hany
  have hsplit := List.takeWhile_append_dropWhile (p := isDigitChar) (l := cs)
  cases hdw : cs.dropWhile isDigitChar with
  | nil =>
    have ht : cs.takeWhile isDigitChar = cs := by
      conv_rhs => rw [← hsplit]
      rw [hdw, List.append_nil]
    have hne : cs ≠ [] := List.ne_nil_of_mem hcdmem
    have hspan : spanDigits cs = (cs.map (fun c => c.toNat - 48), []) := by
      rw [spanDigits_eq, hdw, ht]
    simp [parseUnsignedBase, hspan, hne]
  | cons c r2 =>
    have hc_false : isDigitChar c = false := dropWhile_head_false cs hdw
    have hceq : c = '.' := by
      have hcmem : c ∈ cs := by
        rw [← hsplit, hdw]
        exact List.mem_append_right _ (by simp)
      have hor := hall c hcmem
      rw [Bool.or_eq_true] at hor
      rcases hor with h | h
      · rw [hc_false] at h; cases h
      · simpa using h
    subst hceq
    have htfilter : (cs.takeWhile isDigitChar).filter (fun c => c == '.') = [] := by
      rw [List.filter_eq_nil_iff]
      intro a ha
      have hda : isDigitChar a = true := List.mem_takeWhile_imp ha
      simp only [beq_iff_eq]
      intro hadot
      subst hadot
      rw [show isDigitChar '.' = false from rfl] at hda
      cases hda
    have hcsfilter : cs.filter (fun c => c == '.') =
        '.' :: r2.filter (fun c => c == '.') := by
      conv_lhs => rw [← hsplit, hdw]
      rw [List.filter_append, htfilter]
      simp
    rw [hcsfilter] at hcount
    simp only [List.length_cons] at hcount
    have hr2f : r2.filter (fun c => c == '.') = [] := by
      have : (r2.filter (fun c => c == '.')).length = 0 := by omega
      exact List.eq_nil_of_length_eq_zero this
    have hr2nodot : ∀ x ∈ r2, ¬(x = '.') := by
      intro x hx hxd
      have hmf : x ∈ r2.filter (fun c => c == '.') :=
        List.mem_filter.mpr ⟨hx, by simp [hxd]⟩
      rw [hr2f] at hmf
      simp at hmf
    have hr2dig : ∀ x ∈ r2, isDigitChar x = true := by
      intro x hx
      have hmem : x ∈ cs := by
        rw [← hsplit, hdw]
        exact List.mem_append_right _ (by simp [hx])
      have hor := hall x hmem
      rw [Bool.or_eq_true] at hor
      rcases hor with h | h
      · exact h
      · exact absurd (by simpa using h) (hr2nodot x hx)
    have hdw2 : r2.dropWhile isDigitChar = [] :=
      List.dropWhile_eq_nil_iff.mpr (fun x hx => by simp [hr2dig x hx])
    have htw2 : r2.takeWhile isDigitChar = r2 := by
      have h2 := List.takeWhile_append_dropWhile (p := isDigitChar) (l := r2)
      rw [hdw2, List.append_nil] at h2
      exact h2
    have hspan1 : spanDigits cs =
        ((cs.takeWhile isDigitChar).map (fun c => c.toNat - 48), '.' :: r2) := by
      rw [spanDigits_eq, hdw]
    have hspan2 : spanDigits r2 = (r2.map (fun c => c.toNat - 48), []) := by
      rw [spanDigits_eq, hdw2, htw2]
    have hnotboth : ¬(cs.takeWhile isDigitChar = [] ∧ r2 = []) := by
      rintro ⟨h1, h2⟩
      subst h2
      rw [← hsplit, hdw, h1, List.nil_append] at hcdmem
      simp at hcdmem
      subst hcdmem
      rw [show isDigitChar '.' = false from rfl] at hcddig
      cases hcddig
    by_cases hT : cs.takeWhile isDigitChar = []
    · have hR : r2 ≠ [] := fun h => hnotboth ⟨hT, h⟩
      simp [parseUnsignedBase, hspan1, hspan2, hT, hR]
    · simp [parseUnsignedBase, hspan1, hspan2, hT]

theorem parseSign_snd (cs : List Char) : (parseSign cs).2 = stripSign cs := by
  match cs with
  | [] => rfl
  | c :: r =>
    by_cases h1 : c = '-'
    · simp [parseSign, stripSign, h1]
    · by_cases h2 : c = '+'
      · simp [parseSign, stripSign, h1, h2]
      · simp [parseSign, stripSign, h1, h2]

theorem validExpPart_parse (cs : List Char) (h : validExpPart cs = true) :
    (parseExpPart cs).isSome := by
  unfold validExpPart at h
  rw [Bool.and_eq_true] at h
  obtain ⟨hne, hall⟩ := h
  rw [List.all_eq_true] at hall
  have hdw : (stripSign cs).dropWhile isDigitChar = [] :=
    List.dropWhile_eq_nil_iff.mpr (fun x hx => by simp [hall x hx])
  have htw : (stripSign cs).takeWhile isDigitChar = stripSign cs := by
    have h2 := List.takeWhile_append_dropWhile (p := isDigitChar) (l := stripSign cs)
    rw [hdw, List.append_nil] at h2
    exact h2
  have hspan : spanDigits (stripSign cs) =
      ((stripSign cs).map (fun c => c.toNat - 48), []) := by
    rw [spanDigits_eq, hdw, htw]
  have hnn : stripSign cs ≠ [] := by
    intro hc
    rw [hc] at hne
    simp at hne
  simp [parseExpPart, parseSign_snd, hspan, hnn]

theorem valid_from_str (s : String) (h : isValidDecimalString s = true) :
    (BigDecimal.from_str s).isSome := by
  unfold isValidDecimalString at h
  cases hsp : (splitExp s.data).2 with
  | none =>
    rw [hsp] at h
    have hbase := validUnsignedBase_parse _ h
    obtain ⟨p, hp⟩ := Option.isSome_iff_exists.mp hbase
    obtain ⟨ds, fl⟩ := p
    simp [BigDecimal.from_str, parseDecParts, parseSign_snd, hp, hsp]
  | some ec =>
    rw [hsp] at h
    rw [Bool.and_eq_true] at h
    obtain ⟨hb, he⟩ := h
    have hbase := validUnsignedBase_parse _ hb
    have hexp := validExpPart_parse _ he
    obtain ⟨p, hp⟩ := Option.isSome_iff_exists.mp hbase
    obtain ⟨ds, fl⟩ := p
    obtain ⟨q, hq⟩ := Option.isSome_iff_exists.mp hexp
    simp [BigDecimal.from_str, parseDecParts, parseSign_snd, hp, hsp, hq]

/-! ## Sign arithmetic helpers -/

theorem ite_neg_natAbs (i : Int) :
    (if decide (i < 0) = true then -(i.natAbs : Int) else (i.natAbs : Int)) = i := by
  by_cases h : i < 0
  · rw [if_pos (by simpa using h)]
    omega
  · rw [if_neg (by simpa using h)]
    omega

theorem ite_neg_natAbs_mul (i : Int) (k : Nat) :
    (if decide (i < 0) = true then -((i.natAbs * 10 ^ k : Nat) : Int)
     else ((i.natAbs * 10 ^ k : Nat) : Int)) = i * 10 ^ k := by
  by_cases h : i < 0
  · rw [if_pos (by simpa using h), Nat.cast_mul, Nat.cast_pow]
    have hna : (i.natAbs : Int) = -i := by omega
    rw [hna]
    push_cast
    ring
  · rw [if_neg (by simpa using h), Nat.cast_mul, Nat.cast_pow]
    have hna : (i.natAbs : Int) = i := by omega
    rw [hna]
    push_cast
    ring

theorem BigDecimal.beq_refl (a : BigDecimal) : a.beq a = true := by
  simp [BigDecimal.beq]

/-! ## The claims -/

/-- C1 (amended): for every NativeDecimal `n`, converting it to a foreign
decimal with `to_object` succeeds, and extracting the result back with
`extract_bound` succeeds and yields a NativeDecimal equal to `n` under the
native type's own equality (`BigDecimal.beq`, numeric equality of
`unscaled × 10^-scale`); moreover, whenever `n.scale ≥ 0` the extracted
value has exactly the same unscaled integer, sign, and scale as `n`. (The
original claim's "same unscaled integer and scale" fails for negative
scales, where the trailing zeros migrate into the unscaled integer — see
the counterexample.) -/
theorem bigdecimal_native_roundtrip (n : BigDecimal) :
    ∃ d m, to_object n = some d ∧ extract_bound (.dec d) = .ok m ∧
      m.beq n = true ∧ (0 ≤ n.scale → m = n) := by
  obtain ⟨iv, sc⟩ := n
  by_cases hs : sc ≤ 0
  · have hext := extract_bound_dec_finite (decide (iv < 0))
      (iv.natAbs * 10 ^ (-sc).toNat) 0
    rw [ite_neg_natAbs_mul iv ((-sc).toNat), neg_zero] at hext
    refine ⟨_, _, ?_, hext, ?_, ?_⟩
    · rw [to_object_eq ⟨iv, sc⟩, if_pos hs]
    · by_cases hz : sc = 0
      · subst hz
        simp [BigDecimal.beq]
      · have hns : ¬((0 : Int) ≤ sc) := by omega
        simp [BigDecimal.beq, hns, zero_sub]
    · intro h0
      have h0' : (0 : Int) ≤ sc := h0
      have hz : sc = 0 := by omega
      subst hz
      simp
  · have hext := extract_bound_dec_finite (decide (iv < 0)) iv.natAbs (-sc)
    rw [ite_neg_natAbs iv, neg_neg] at hext
    refine ⟨_, ⟨iv, sc⟩, ?_, hext, BigDecimal.beq_refl _, fun _ => rfl⟩
    rw [to_object_eq ⟨iv, sc⟩, if_neg hs]

theorem bigdecimal_native_roundtrip_witness :
    ∃ d m, to_object ⟨1234, 2⟩ = some d ∧ extract_bound (.dec d) = .ok m ∧
      m.beq ⟨1234, 2⟩ = true ∧ (0 ≤ (BigDecimal.mk 1234 2).scale → m = ⟨1234, 2⟩) :=
  bigdecimal_native_roundtrip ⟨1234, 2⟩

/-- C1 counterexample: for `n = ⟨1, −1⟩` (unscaled 1, scale −1, the value
10) the round trip yields `⟨10, 0⟩` — numerically equal to `n` but with a
different unscaled integer and scale, so "exactly equal (same unscaled
integer, sign, and scale)" is false as stated. -/
theorem native_roundtrip_exact_cex :
    to_object ⟨1, -1⟩ = some (.finite false 10 0) ∧
    extract_bound (.dec (.finite false 10 0)) = .ok ⟨10, 0⟩ ∧
    BigDecimal.mk 10 0 ≠ ⟨1, -1⟩ := by
  refine ⟨by decide, by decide, by decide⟩

/-- C2 (amended): for every finite ForeignDecimal `± c × 10^e`,
`extract_bound` succeeds, and `to_object` of the result succeeds and is
numerically equal to the original under the foreign `==`
(`PyDecimal.beq`); moreover, when `e ≤ 0` and the value is not a negative
zero, the result has exactly the same sign, coefficient, and exponent.
(The original claim's "same digits, sign, and scale" fails for a negative
zero, whose sign the native representation cannot encode — see the
counterexample — and for positive exponents, whose trailing zeros are
materialised into the coefficient.) -/
theorem foreign_roundtrip_value (sg : Bool) (c : Nat) (e : Int) :
    ∃ n v, extract_bound (.dec (.finite sg c e)) = .ok n ∧
      to_object n = some v ∧ PyDecimal.beq v (.finite sg c e) = true ∧
      (e ≤ 0 → (c ≠ 0 ∨ sg = false) → v = .finite sg c e) := by
  have hext := extract_bound_dec_finite sg c e
  have hna : (if sg then -(c : Int) else (c : Int)).natAbs = c := by
    cases sg <;> simp
  by_cases he : (0 : Int) ≤ e
  · have hsc : (-e : Int) ≤ 0 := by omega
    have hto := to_object_eq ⟨if sg then -(c : Int) else (c : Int), -e⟩
    rw [if_pos hsc] at hto
    simp only [neg_neg] at hto
    rw [hna] at hto
    refine ⟨_, _, hext, hto, ?_, ?_⟩
    · cases sg with
      | false =>
        simp [PyDecimal.beq, he, sub_zero]
      | true =>
        by_cases hc : c = 0
        · subst hc
          simp [PyDecimal.beq, he]
        · have hcpos : (0 : Int) < (c : Int) := by exact_mod_cast Nat.pos_of_ne_zero hc
          simp [PyDecimal.beq, he, sub_zero, hcpos]
    · intro hle hnz
      have he0 : e = 0 := le_antisymm hle he
      subst he0
      simp only [Int.toNat_zero, pow_zero, mul_one]
      rcases hnz with hc | hsg
      · cases sg with
        | false => simp
        | true =>
          have hcpos : (0 : Int) < (c : Int) := by exact_mod_cast Nat.pos_of_ne_zero hc
          simp [hcpos]
      · subst hsg
        simp
  · have hsc : ¬((-e : Int) ≤ 0) := by omega
    have hto := to_object_eq ⟨if sg then -(c : Int) else (c : Int), -e⟩
    rw [if_neg hsc] at hto
    simp only [neg_neg] at hto
    rw [hna] at hto
    refine ⟨_, _, hext, hto, ?_, ?_⟩
    · cases sg with
      | false => simp [PyDecimal.beq]
      | true =>
        by_cases hc : c = 0
        · subst hc
          simp [PyDecimal.beq]
        · have hcpos : (0 : Int) < (c : Int) := by exact_mod_cast Nat.pos_of_ne_zero hc
          simp [PyDecimal.beq, hcpos]
    · intro _ hnz
      rcases hnz with hc | hsg
      · cases sg with
        | false => simp
        | true =>
          have hcpos : (0 : Int) < (c : Int) := by exact_mod_cast Nat.pos_of_ne_zero hc
          simp [hcpos]
      · subst hsg
        simp

theorem foreign_roundtrip_value_witness :
    ∃ n v, extract_bound (.dec (.finite true 314 (-2))) = .ok n ∧
      to_object n = some v ∧ PyDecimal.beq v (.finite true 314 (-2)) = true ∧
      ((-2 : Int) ≤ 0 → (314 ≠ 0 ∨ true = false) → v = .finite true 314 (-2)) :=
  foreign_roundtrip_value true 314 (-2)

/-- C2 counterexample: the finite foreign value `-0` (sign −, coefficient
0, exponent 0) extracts to native zero, whose injection renders `0` — a
foreign decimal with a different sign. The original "same sign" claim is
false at this input. -/
theorem foreign_roundtrip_sign_cex :
    extract_bound (.dec (.finite true 0 0)) = .ok ⟨0, 0⟩ ∧
    to_object ⟨0, 0⟩ = some (.finite false 0 0) ∧
    PyDecimal.finite false 0 0 ≠ .finite true 0 0 :=
  ⟨by decide, by decide, by decide⟩

/-- C3: extracting a non-finite foreign decimal (NaN, or a signed or
unsigned Infinity) fails with the ValueError carrying the parser's
diagnostic for the offending canonical string, and never produces a
native value. -/
theorem nonfinite_rejected (d : PyDecimal) (h : d.isFinite = false) :
    ∃ msg, extract_bound (.dec d) = .error (.valueError msg) := by
  cases d with
  | finite sg c e => simp [PyDecimal.isFinite] at h
  | nan => exact ⟨"NaN", by decide⟩
  | inf sg =>
    cases sg
    · exact ⟨"Infinity", by decide⟩
    · exact ⟨"-Infinity", by decide⟩

theorem nonfinite_rejected_witness :
    ∃ msg, extract_bound (.dec .nan) = .error (.valueError msg) :=
  nonfinite_rejected .nan (by decide)

/-- C4: the ValueError wrapping the parser's diagnostic is the sole error
`extract_bound` can produce, and the slow-path parser succeeds on every
syntactically valid finite decimal string, so extraction never fails on an
input whose canonical string is valid decimal syntax. -/
theorem invalid_decimal_sole_error :
    (∀ s, isValidDecimalString s = true → (BigDecimal.from_str s).isSome = true) ∧
    (∀ obj : PyObj, (∃ n, extract_bound obj = .ok n) ∨
      (∃ msg, extract_bound obj = .error (.valueError msg))) := by
  constructor
  · intro s h
    exact valid_from_str s h
  · intro obj
    rcases hi : obj.extractI64 with _ | v
    · rcases hf : BigDecimal.from_str obj.str with _ | d
      · exact Or.inr ⟨obj.str, by unfold extract_bound; rw [hi, hf]⟩
      · exact Or.inl ⟨d, by unfold extract_bound; rw [hi, hf]⟩
    · exact Or.inl ⟨BigDecimal.fromI64 v, by unfold extract_bound; rw [hi]⟩

theorem invalid_decimal_sole_error_witness :
    (BigDecimal.from_str "-12.30e-2").isSome = true :=
  invalid_decimal_sole_error.1 "-12.30e-2" (by decide)

/-- C5: the i64 fast path agrees with the canonical-string slow path: for
every in-range machine integer, extraction takes the fast path and yields
`BigDecimal.fromI64 i`, and parsing the integer's canonical string with
`BigDecimal.from_str` yields the identical NativeDecimal. -/
theorem int_fastpath_equiv (i : Int) (h1 : -(2 ^ 63) ≤ i) (h2 : i < 2 ^ 63) :
    extract_bound (.int i) = .ok (BigDecimal.fromI64 i) ∧
    BigDecimal.from_str (PyObj.str (.int i)) = some (BigDecimal.fromI64 i) := by
  constructor
  · have hfast : (PyObj.int i).extractI64 = some i := by
      simp only [PyObj.extractI64]
      rw [if_pos ⟨h1, h2⟩]
    unfold extract_bound
    rw [hfast]
  · show BigDecimal.from_str (intToString i) = _
    unfold intToString
    rw [from_str_renderPlain _ _ _ (digitsOrZero_ne_nil _) (digitsOrZero_lt _)]
    rw [ofDigitsBE_digitsOrZero, ite_neg_natAbs i]
    rfl

theorem int_fastpath_equiv_witness :
    extract_bound (.int 42) = .ok (BigDecimal.fromI64 42) ∧
    BigDecimal.from_str (PyObj.str (.int 42)) = some (BigDecimal.fromI64 42) :=
  int_fastpath_equiv 42 (by norm_num) (by norm_num)

/-- C6: `to_object` is total over all NativeDecimal values: the canonical
string of a finite native decimal is always a valid decimal literal, so
the foreign constructor invocation always succeeds; given a resolvable
constructor handle (an environment matter outside the data model), the
bridge's two `expect` branches are unreachable. -/
theorem to_object_total (a : BigDecimal) : ∃ d, to_object a = some d :=
  ⟨_, to_object_eq a⟩

/-- C7: `Decimal("0")` extracts to `BigDecimal.zero`, which injects back
to the foreign zero with canonical string `"0"`; `Decimal("1")` extracts
to `BigDecimal.one` and round-trips to `"1"`. -/
theorem zero_one_roundtrip :
    PyDecimal.construct "0" = some (.finite false 0 0) ∧
    extract_bound (.dec (.finite false 0 0)) = .ok BigDecimal.zero ∧
    to_object BigDecimal.zero = some (.finite false 0 0) ∧
    PyDecimal.str (.finite false 0 0) = "0" ∧
    PyDecimal.construct "1" = some (.finite false 1 0) ∧
    extract_bound (.dec (.finite false 1 0)) = .ok BigDecimal.one ∧
    to_object BigDecimal.one = some (.finite false 1 0) ∧
    PyDecimal.str (.finite false 1 0) = "1" :=
  ⟨by decide, by decide, by decide, by decide,
   by decide, by decide, by decide, by decide⟩

/-- C8: a foreign negative zero loses its sign across the bridge: `-0`
extracts to native `⟨0, 0⟩`, which re-injects as plain `0`; `-0.00`
extracts to `⟨0, 2⟩`, which re-injects as `0.00` — the scale is kept but
the sign is discarded, since the native unscaled integer has no negative
zero. -/
theorem negative_zero_sign_discarded :
    PyDecimal.construct "-0" = some (.finite true 0 0) ∧
    extract_bound (.dec (.finite true 0 0)) = .ok ⟨0, 0⟩ ∧
    to_object ⟨0, 0⟩ = some (.finite false 0 0) ∧
    PyDecimal.str (.finite false 0 0) = "0" ∧
    PyDecimal.construct "-0.00" = some (.finite true 0 (-2)) ∧
    extract_bound (.dec (.finite true 0 (-2))) = .ok ⟨0, 2⟩ ∧
    to_object ⟨0, 2⟩ = some (.finite false 0 (-2)) ∧
    PyDecimal.str (.finite false 0 (-2)) = "0.00" :=
  ⟨by decide, by decide, by decide, by decide,
   by decide, by decide, by decide, by decide⟩

/-- C9: extraction is not restricted to `decimal.Decimal` instances — any
foreign object whose i64 extraction succeeds, or whose `str()` text is a
syntactically valid decimal literal, extracts successfully to the
NativeDecimal denoted by that text. -/
theorem extract_accepts_any_decimal_text (obj : PyObj)
    (h : (obj.extractI64).isSome = true ∨ isValidDecimalString obj.str = true) :
    ∃ n, extract_bound obj = .ok n := by
  rcases h with h | h
  · obtain ⟨v, hv⟩ := Option.isSome_iff_exists.mp h
    exact ⟨BigDecimal.fromI64 v, by unfold extract_bound; rw [hv]⟩
  · rcases hi : obj.extractI64 with _ | v
    · have hs := valid_from_str _ h
      obtain ⟨d, hd⟩ := Option.isSome_iff_exists.mp hs
      exact ⟨d, by unfold extract_bound; rw [hi, hd]⟩
    · exact ⟨BigDecimal.fromI64 v, by unfold extract_bound; rw [hi]⟩

theorem extract_accepts_any_decimal_text_witness :
    ∃ n, extract_bound (.strObj "3.14") = .ok n :=
  extract_accepts_any_decimal_text (.strObj "3.14") (Or.inr (by decide))

/-- C10: the two injection entry points coincide: `into_py` is defined by
delegation to `to_object` and produces exactly the same foreign object for
every NativeDecimal. -/
theorem into_py_eq_to_object (a : BigDecimal) : into_py a = to_object a := rfl
